import Mathlib

/-!
Earning Analyst: verification of the ingestion / aggregation / filter engine.

Shallow embedding of the core logic of `src/App.tsx` (the `Earning-Analyst`
repository): CSV row normalization (`processCSV`), the per-video and per-label
aggregation, the filter recomputation engine (`filteredData`), and the
efficiency classifier (`isTopEfficiency` / `maxEfficiency`).

Modelling conventions:
* JavaScript numbers are modelled as `ℚ` (exact arithmetic; the source uses
  IEEE doubles, but every claim below is about the algebraic structure of the
  computation, not about rounding).
* JavaScript strings are Lean `String`s; the string builtins used by the source
  (`trim`, `toLowerCase`, `replace(/,/g,'')`) are re-implemented on character
  lists so that they compute by kernel reduction.
* `Map` / `Set` (which iterate in insertion order in JavaScript) are modelled
  as association lists / duplicate-free lists kept in insertion order.
* `Array.prototype.sort` with comparator `(a, b) => b.totalEarning - a.totalEarning`
  is a stable sort; it is modelled with Mathlib's stable `List.insertionSort`.
* Fields of `AnalysisResult` not touched by the verified logic
  (`id`, `fileName`, `timestamp`, `startDate`, `endDate`, `aiInsight`,
  `missingColumns`) are omitted: identity, clock, locale date formatting and
  the asynchronous insight string play no role in any claim.  Date collection
  (`dates.push` in `processCSV`) is likewise not modelled: it feeds only
  `startDate`/`endDate`, which depend on the JavaScript `Date` parser.
-/

namespace EarningAnalyst

/-! ## JavaScript string primitives, re-implemented on character lists -/

/-- Model of `String.prototype.toLowerCase` (character-wise lowering). -/
def jsToLower (s : String) : String := String.mk (s.data.map Char.toLower)

/-- Model of `String.prototype.trim`: strip leading and trailing whitespace. -/
def jsTrim (s : String) : String :=
  String.mk (((s.data.dropWhile Char.isWhitespace).reverse.dropWhile
    Char.isWhitespace).reverse)

/-- Model of `val.replace(/,/g, '')`: delete every comma. -/
def removeCommas (s : String) : String :=
  String.mk (s.data.filter (fun c => c ≠ ','))

/-- JavaScript truthiness of an optional string: `undefined` and `""` are
falsy, every other string is truthy. -/
def jsTruthy (o : Option String) : Bool :=
  match o with
  | none => false
  | some s => s ≠ ""

/-! ## Raw cell values and earning parsing (`parseEarning`, App.tsx 56–63) -/

/-- A raw CSV cell as seen by `parseEarning`: the source receives `any` and
distinguishes `undefined`, `null`, numbers and strings; anything else falls
through to the final `return 0`. -/
inductive Value where
  | undef : Value
  | null : Value
  | num : ℚ → Value
  | str : String → Value
  | other : Value
deriving DecidableEq, Repr

/-- Digit run to a natural number (most significant first). -/
def digitsToNat (ds : List Char) : Nat :=
  ds.foldl (fun n c => 10 * n + (c.toNat - 48)) 0

/-- Exponent part of a JavaScript float literal: optional sign then digits;
an exponent with no digits is not consumed (contributes `0`). -/
def parseExp (cs : List Char) : ℤ :=
  let sgn : ℤ × List Char :=
    match cs with
    | '-' :: r => (-1, r)
    | '+' :: r => (1, r)
    | _ => (1, cs)
  let ds := sgn.2.takeWhile Char.isDigit
  if ds.isEmpty then 0 else sgn.1 * (digitsToNat ds : ℤ)

/-- Model of the JavaScript `parseFloat` builtin as used by `parseEarning`:
skip leading whitespace, optional sign, decimal digits with optional fraction
and optional exponent, longest-valid-prefix semantics; `NaN` is modelled as
`none`.  (`Infinity` literals are not modelled; they cannot arise from the
numeric spreadsheet cells this program parses.) -/
def jsParseFloat (s : String) : Option ℚ :=
  let cs := s.data.dropWhile Char.isWhitespace
  let sgn : ℚ × List Char :=
    match cs with
    | '-' :: r => (-1, r)
    | '+' :: r => (1, r)
    | _ => (1, cs)
  let ip := sgn.2.takeWhile Char.isDigit
  let cs2 := sgn.2.dropWhile Char.isDigit
  let fp : List Char × List Char :=
    match cs2 with
    | '.' :: r => (r.takeWhile Char.isDigit, r.dropWhile Char.isDigit)
    | _ => ([], cs2)
  if ip.isEmpty ∧ fp.1.isEmpty then none
  else
    let mant : ℚ := (digitsToNat ip : ℚ) + (digitsToNat fp.1 : ℚ) / ((10 : ℚ) ^ fp.1.length)
    let expo : ℤ :=
      match fp.2 with
      | 'e' :: r => parseExp r
      | 'E' :: r => parseExp r
      | _ => 0
    some (sgn.1 * mant * (10 : ℚ) ^ expo)

/-- Source `parseEarning` (App.tsx 56–63).  `undefined`/`null`/`''` give `0`; a
number is returned as is; a string has its commas removed and is passed to
`parseFloat`, with `|| 0` mapping `NaN` (and `0` itself, numerically a no-op)
to `0`; any other value gives `0`.  The function is total: no input raises. -/
def parseEarning (val : Value) : ℚ :=
  match val with
  | .undef => 0
  | .null => 0
  | .num q => q
  | .str s => if s = "" then 0 else (jsParseFloat (removeCommas s)).getD 0
  | .other => 0

/-! ## Hashtag extraction (`extractHashtags`, App.tsx 50–54) -/

/-- Character class of the regex `[\p{L}\p{N}_]` (letters, digits,
underscore); the model uses the ASCII alphanumerics, which covers every
hashtag occurring in the claims. -/
def isTagChar (c : Char) : Bool := c.isAlphanum || c = '_'

/-- One step of the scanner for the regex `#[\p{L}\p{N}_]+` (global match):
the state is `none` outside a candidate tag, or `some t` when a `#` has been
seen and `t` are the tag characters collected so far. -/
def tagStep (st : Option (List Char) × List String) (c : Char) :
    Option (List Char) × List String :=
  match st with
  | (none, acc) => if c = '#' then (some [], acc) else (none, acc)
  | (some t, acc) =>
    if isTagChar c then (some (t ++ [c]), acc)
    else
      let acc2 := if t.isEmpty then acc else acc ++ [String.mk ('#' :: t)]
      if c = '#' then (some [], acc2) else (none, acc2)

/-- All matches of `#[\p{L}\p{N}_]+` in a string, in order. -/
def extractRawTags (s : String) : List String :=
  match s.data.foldl tagStep (none, []) with
  | (some t, acc) => if t.isEmpty then acc else acc ++ [String.mk ('#' :: t)]
  | (none, acc) => acc

/-- Append an element unless already present (JavaScript `Set.add` on a list
kept in insertion order). -/
def insertUnique (l : List String) (x : String) : List String :=
  if l.contains x then l else l ++ [x]

/-- De-duplicate keeping the first occurrence of each element
(`Array.from(new Set(...))`). -/
def dedupKeepFirst (l : List String) : List String := l.foldl insertUnique []

/-- Source `extractHashtags` (App.tsx 50–54): empty text gives `[]`; otherwise the
regex matches, lower-cased, de-duplicated in first-occurrence order. -/
def extractHashtags (text : String) : List String :=
  if text = "" then []
  else dedupKeepFirst ((extractRawTags text).map jsToLower)

/-! ## Data model (`src/types.ts`) -/

/-- Type `VideoEarning` (types.ts): one aggregated entry per video-map key. -/
structure VideoEarning where
  title : String
  label : String
  totalEarning : ℚ
  assetId : Option String
  date : Option String
  hashtags : List String
deriving DecidableEq, Repr

/-- Type `LabelSummary` (types.ts). -/
structure LabelSummary where
  label : String
  totalEarning : ℚ
  videoCount : Nat
deriving DecidableEq, Repr

/-- Type `AnalysisResult` (types.ts), restricted to the fields the verified logic
reads or writes (see the module docstring for the omitted fields). -/
structure AnalysisResult where
  videoEarnings : List VideoEarning
  labelSummaries : List LabelSummary
  grandTotal : ℚ
  lowEarningCount : Nat
  allHashtags : List String
deriving DecidableEq, Repr

/-- The filter inputs of the `filteredData` memo (App.tsx 203–245):
`selectedLabels`, `selectedHashtags`, `hideLowEarnings`
(spec name `hideLowEarningVideos`) and `hideLowEarningLabels`. -/
structure FilterState where
  selectedLabels : List String
  selectedHashtags : List String
  hideLowEarnings : Bool
  hideLowEarningLabels : Bool
deriving DecidableEq, Repr

/-- Source `reduce((acc, v) => acc + v.totalEarning, 0)` over videos. -/
def sumEarnings (vs : List VideoEarning) : ℚ :=
  vs.foldl (fun acc v => acc + v.totalEarning) 0

/-- Source `reduce((acc, curr) => acc + curr.totalEarning, 0)` over label summaries. -/
def sumLabelTotals (ls : List LabelSummary) : ℚ :=
  ls.foldl (fun acc l => acc + l.totalEarning) 0

/-- Comparator `(a, b) => b.totalEarning - a.totalEarning` on videos, as the
ordering relation of a stable sort: `a` may precede `b` iff
`b.totalEarning ≤ a.totalEarning`. -/
def earningDesc (a b : VideoEarning) : Prop := b.totalEarning ≤ a.totalEarning

/-- Comparator `(a, b) => b.totalEarning - a.totalEarning` on label summaries. -/
def labelDesc (a b : LabelSummary) : Prop := b.totalEarning ≤ a.totalEarning

instance : DecidableRel earningDesc := fun a b =>
  inferInstanceAs (Decidable (b.totalEarning ≤ a.totalEarning))

instance : DecidableRel labelDesc := fun a b =>
  inferInstanceAs (Decidable (b.totalEarning ≤ a.totalEarning))

instance : IsTotal VideoEarning earningDesc :=
  ⟨fun a b => (le_total b.totalEarning a.totalEarning).imp id id⟩

instance : IsTrans VideoEarning earningDesc :=
  ⟨fun _ _ _ h1 h2 => le_trans h2 h1⟩

instance : IsTotal LabelSummary labelDesc :=
  ⟨fun a b => (le_total b.totalEarning a.totalEarning).imp id id⟩

instance : IsTrans LabelSummary labelDesc :=
  ⟨fun _ _ _ h1 h2 => le_trans h2 h1⟩

/-! ## The filter recomputation engine (`filteredData`, App.tsx 203–245) -/

/-- Steps 1–2 (App.tsx 206–209): keep the base label summaries whose name is
selected; if `hideLowEarningLabels` is set, additionally keep only those whose
(base, pre-filter) `totalEarning >= 1`. -/
def workingLabels (data : AnalysisResult) (F : FilterState) : List LabelSummary :=
  let w := data.labelSummaries.filter (fun l => F.selectedLabels.contains l.label)
  if F.hideLowEarningLabels then w.filter (fun l => 1 ≤ l.totalEarning) else w

/-- Steps 3–5 (App.tsx 211–222): keep the base videos whose label survived;
if any hashtags are selected, keep videos carrying at least one of them
(`some`, i.e. logical OR); if `hideLowEarnings` is set, keep only videos with
`totalEarning >= 1`. -/
def filteredVideos (data : AnalysisResult) (F : FilterState) : List VideoEarning :=
  let names := (workingLabels data F).map LabelSummary.label
  let v1 := data.videoEarnings.filter (fun v => names.contains v.label)
  let v2 :=
    if F.selectedHashtags.isEmpty then v1
    else v1.filter (fun v => F.selectedHashtags.any (fun tag => v.hashtags.contains tag))
  if F.hideLowEarnings then v2.filter (fun v => 1 ≤ v.totalEarning) else v2

/-- Step 6 body (App.tsx 224–230): recompute one surviving label's total and
count from the surviving videos carrying that label. -/
def recomputeLabel (vids : List VideoEarning) (l : LabelSummary) : LabelSummary :=
  let vs := vids.filter (fun v => v.label == l.label)
  { l with totalEarning := sumEarnings vs, videoCount := vs.length }

/-- Steps 6–7 (App.tsx 224–233): recompute every surviving label, drop those
with no surviving video, and re-sort by total earning descending. -/
def finalLabels (data : AnalysisResult) (F : FilterState) : List LabelSummary :=
  List.insertionSort labelDesc
    (((workingLabels data F).map (recomputeLabel (filteredVideos data F))).filter
      (fun l => 0 < l.videoCount))

/-- The `filteredData` memo (App.tsx 203–245): the filtered view derived from
the base result and the filter state (spec name: `recompute(base, F)`). -/
def filteredData (data : AnalysisResult) (F : FilterState) : AnalysisResult :=
  { data with
    labelSummaries := finalLabels data F
    videoEarnings := filteredVideos data F
    grandTotal := sumLabelTotals (finalLabels data F)
    lowEarningCount := ((filteredVideos data F).filter (fun v => v.totalEarning < 1)).length }

/-! ## Row normalization and aggregation (`processCSV`, App.tsx 88–201) -/

/-- A raw CSV row after the bilingual alias lookup (App.tsx 106–114) but
before trimming/defaulting: each field holds the value of
`row[vietnameseAlias] || row[englishAlias]` (`none` when every alias is
absent or falsy), and the two earning columns are kept separate. -/
structure Row where
  title : Option String
  label : Option String
  assetId : Option String
  dateStr : Option String
  description : String
  earningVN : Value
  earningEN : Value
deriving DecidableEq, Repr

/-- Lookup `(row["Tiêu đề"] || row["Title"])?.trim()`. -/
def normTitle (r : Row) : Option String := r.title.map jsTrim

/-- The guard `if (!title) return` (App.tsx 124): a row is kept iff its
trimmed title is present and non-empty. -/
def titleKept (r : Row) : Bool :=
  match normTitle r with
  | some t => t ≠ ""
  | none => false

/-- The trimmed title of a kept row (`""` for dropped rows, never used). -/
def keptTitle (r : Row) : String := (normTitle r).getD ""

/-- Lookup `(row["Nhãn tùy chỉnh"] || row["Custom labels"])?.trim() || "Không có nhãn"`. -/
def normLabel (r : Row) : String :=
  match r.label.map jsTrim with
  | some l => if l = "" then "Không có nhãn" else l
  | none => "Không có nhãn"

/-- Lookup `(row["Post ID"] || ...)?.toString().trim()`. -/
def normAssetId (r : Row) : Option String := r.assetId.map jsTrim

/-- Lookup `(row["Ngày"] || row["Date"])?.trim()`. -/
def normDate (r : Row) : Option String := r.dateStr.map jsTrim

/-- Resolution `earning = earningVN + earningEN` (App.tsx 113–115): the two bilingual
earning columns are parsed independently and summed. -/
def rowEarning (r : Row) : ℚ := parseEarning r.earningVN + parseEarning r.earningEN

/-- Call `extractHashtags(description)` for one row. -/
def rowHashtags (r : Row) : List String := extractHashtags r.description

/-- The video-map key `` `${title}-${label}` `` (App.tsx 126): a composite
string, not a tagged pair. -/
def videoKey (title label : String) : String := title ++ "-" ++ label

/-- The key a kept row accumulates under. -/
def rowKey (r : Row) : String := videoKey (keptTitle r) (normLabel r)

/-- The key of an aggregated entry (its `title`/`label` are those of the row
that created it, so this is the map key it is stored under). -/
def entryKey (v : VideoEarning) : String := videoKey v.title v.label

/-- One entry of `labelMap` (App.tsx 92): running total and the `Set` of
distinct titles (insertion order). -/
structure LabelAcc where
  label : String
  total : ℚ
  titles : List String
deriving DecidableEq, Repr

/-- Merging a row into an existing video entry (App.tsx 128–137): earnings
add; `assetId` fills in only when previously falsy and the new one truthy;
hashtags union, first-seen order; `date` is never updated. -/
def mergeVideo (r : Row) (v : VideoEarning) : VideoEarning :=
  { v with
    totalEarning := v.totalEarning + rowEarning r
    assetId :=
      if !(jsTruthy v.assetId) && jsTruthy (normAssetId r) then normAssetId r else v.assetId
    hashtags := (rowHashtags r).foldl insertUnique v.hashtags }

/-- A fresh video entry from its first row (App.tsx 139–146). -/
def freshVideo (r : Row) : VideoEarning :=
  { title := keptTitle r
    label := normLabel r
    totalEarning := rowEarning r
    assetId := normAssetId r
    date := normDate r
    hashtags := rowHashtags r }

/-- The `videoMap` update for one kept row (App.tsx 126–147), on the map
modelled as an insertion-ordered association list keyed by `entryKey`. -/
def addVideo (videos : List VideoEarning) (r : Row) : List VideoEarning :=
  if videos.any (fun v => entryKey v == rowKey r) then
    videos.map (fun v => if entryKey v == rowKey r then mergeVideo r v else v)
  else
    videos ++ [freshVideo r]

/-- The `labelMap` update for one kept row (App.tsx 151–156): create the
entry with total `0` and an empty title set if absent, then add the earning
and the title. -/
def addLabel (labels : List LabelAcc) (r : Row) : List LabelAcc :=
  if labels.any (fun a => a.label == normLabel r) then
    labels.map (fun a =>
      if a.label == normLabel r then
        { a with total := a.total + rowEarning r, titles := insertUnique a.titles (keptTitle r) }
      else a)
  else
    labels ++ [{ label := normLabel r, total := rowEarning r, titles := [keptTitle r] }]

/-- The accumulators of one `processCSV` pass (App.tsx 91–93). -/
structure CSVAcc where
  videos : List VideoEarning
  labels : List LabelAcc
  tags : List String
deriving DecidableEq, Repr

/-- The body of `rows.forEach` (App.tsx 105–157) for the accumulators above.
Rows whose trimmed title is falsy are dropped before any accumulation
(including the global hashtag set, App.tsx 149, which is reached only after
the `if (!title) return` guard). -/
def processRow (acc : CSVAcc) (r : Row) : CSVAcc :=
  if titleKept r then
    { videos := addVideo acc.videos r
      labels := addLabel acc.labels r
      tags := (rowHashtags r).foldl insertUnique acc.tags }
  else acc

/-- The state of the accumulators after the `rows.forEach` loop
(App.tsx 105–157), starting from the three empty collections. -/
def csvAccOf (rows : List Row) : CSVAcc :=
  rows.foldl processRow { videos := [], labels := [], tags := [] }

/-- Source `processCSV` (App.tsx 88–192), restricted to the analysis fields: fold the
rows into the accumulators, then sort videos and label summaries by total
earning descending (stable), count low-earning videos, total the label
summaries into `grandTotal`, and sort the hashtag universe ascending. -/
def processCSV (rows : List Row) : AnalysisResult :=
  let acc := csvAccOf rows
  let videoEarnings := List.insertionSort earningDesc acc.videos
  let labelSummaries := List.insertionSort labelDesc
    (acc.labels.map (fun a =>
      { label := a.label, totalEarning := a.total, videoCount := a.titles.length }))
  { videoEarnings := videoEarnings
    labelSummaries := labelSummaries
    grandTotal := sumLabelTotals labelSummaries
    lowEarningCount := (videoEarnings.filter (fun v => v.totalEarning < 1)).length
    allHashtags := List.insertionSort (fun a b => a ≤ b) acc.tags }

/-! ## Efficiency classifier (App.tsx 338–349 and 761–766) -/

/-- Per-label efficiency `videoCount > 0 ? totalEarning / videoCount : 0`
(App.tsx 340 and 764). -/
def labelEfficiency (l : LabelSummary) : ℚ :=
  if 0 < l.videoCount then l.totalEarning / (l.videoCount : ℚ) else 0

/-- The `efficiencies` memo (App.tsx 338–341) over a filtered result. -/
def efficiencies (fd : AnalysisResult) : List ℚ :=
  fd.labelSummaries.map labelEfficiency

/-- The `maxEfficiency` memo (App.tsx 343–345): `Math.max(...efficiencies)`
when non-empty, else `0`. -/
def maxEfficiency (fd : AnalysisResult) : ℚ :=
  match efficiencies fd with
  | [] => 0
  | e :: es => es.foldl max e

/-- Source `isTopEfficiency` (App.tsx 766): the row's "highest" marker,
`efficiency === maxEfficiency && efficiency > 0`, computed independently for
every rendered label row. -/
def isTopEfficiency (fd : AnalysisResult) (l : LabelSummary) : Bool :=
  decide (labelEfficiency l = maxEfficiency fd) && decide (0 < labelEfficiency l)

/-! ## Shared helper lemmas -/

theorem foldl_add_eq (f : α → ℚ) (l : List α) :
    ∀ a : ℚ, l.foldl (fun acc x => acc + f x) a = a + (l.map f).sum := by
  induction l with
  | nil => simp
  | cons x xs ih => intro a; simp [ih]; ring

theorem sumEarnings_eq (vs : List VideoEarning) :
    sumEarnings vs = (vs.map VideoEarning.totalEarning).sum := by
  simpa using foldl_add_eq VideoEarning.totalEarning vs 0

theorem sumLabelTotals_eq (ls : List LabelSummary) :
    sumLabelTotals ls = (ls.map LabelSummary.totalEarning).sum := by
  simpa using foldl_add_eq LabelSummary.totalEarning ls 0

theorem map_eq_self {f : α → α} {l : List α} (h : ∀ x ∈ l, f x = x) :
    l.map f = l := by
  conv_rhs => rw [← List.map_id l]
  exact List.map_congr_left h

/-- Membership in the recomputed, pruned, re-sorted label list. -/
theorem mem_finalLabels_iff (data : AnalysisResult) (F : FilterState) (l : LabelSummary) :
    l ∈ finalLabels data F ↔
      l ∈ (workingLabels data F).map (recomputeLabel (filteredVideos data F)) ∧
        0 < l.videoCount := by
  unfold finalLabels
  rw [List.mem_insertionSort, List.mem_filter]
  simp

theorem recomputeLabel_label (vids : List VideoEarning) (l : LabelSummary) :
    (recomputeLabel vids l).label = l.label := rfl

theorem recomputeLabel_totalEarning (vids : List VideoEarning) (l : LabelSummary) :
    (recomputeLabel vids l).totalEarning =
      sumEarnings (vids.filter (fun v => v.label == l.label)) := rfl

theorem recomputeLabel_videoCount (vids : List VideoEarning) (l : LabelSummary) :
    (recomputeLabel vids l).videoCount =
      (vids.filter (fun v => v.label == l.label)).length := rfl

theorem filteredData_labelSummaries (data : AnalysisResult) (F : FilterState) :
    (filteredData data F).labelSummaries = finalLabels data F := rfl

theorem filteredData_videoEarnings (data : AnalysisResult) (F : FilterState) :
    (filteredData data F).videoEarnings = filteredVideos data F := rfl

/-- Structure of membership in `filteredVideos`: a surviving video is a base
video whose label survived, which passes the hashtag test whenever hashtags
are selected, and the low-earning test whenever that toggle is on. -/
theorem mem_filteredVideos (data : AnalysisResult) (F : FilterState) (v : VideoEarning)
    (hv : v ∈ filteredVideos data F) :
    v ∈ data.videoEarnings ∧
      ((workingLabels data F).map LabelSummary.label).contains v.label = true ∧
      (F.selectedHashtags.isEmpty = false →
        F.selectedHashtags.any (fun tag => v.hashtags.contains tag) = true) ∧
      (F.hideLowEarnings = true → 1 ≤ v.totalEarning) := by
  unfold filteredVideos at hv
  have step1 : v ∈ (if F.selectedHashtags.isEmpty then
        data.videoEarnings.filter
          (fun w => ((workingLabels data F).map LabelSummary.label).contains w.label)
      else
        (data.videoEarnings.filter
          (fun w => ((workingLabels data F).map LabelSummary.label).contains w.label)).filter
          (fun w => F.selectedHashtags.any (fun tag => w.hashtags.contains tag))) ∧
      (F.hideLowEarnings = true → 1 ≤ v.totalEarning) := by
    by_cases hlow : F.hideLowEarnings
    · rw [if_pos hlow] at hv
      rcases List.mem_filter.mp hv with ⟨hv2, hge⟩
      exact ⟨hv2, fun _ => by simpa using hge⟩
    · rw [if_neg hlow] at hv
      exact ⟨hv, fun hc => absurd hc hlow⟩
  rcases step1 with ⟨hv2, hlowOK⟩
  by_cases htags : F.selectedHashtags.isEmpty
  · rw [if_pos htags] at hv2
    rcases List.mem_filter.mp hv2 with ⟨hbase, hname⟩
    exact ⟨hbase, hname, fun hc => absurd htags (by simp [hc]), hlowOK⟩
  · rw [if_neg htags] at hv2
    rcases List.mem_filter.mp hv2 with ⟨hv3, htag⟩
    rcases List.mem_filter.mp hv3 with ⟨hbase, hname⟩
    exact ⟨hbase, hname, fun _ => htag, hlowOK⟩

/-! ## C10 — the filtered video list is an untouched subsequence of the base -/

/-- Claim C10. The recomputation engine never alters base videos: the filtered
`videoEarnings` is a subsequence (`List.Sublist`) of the base `videoEarnings`,
so every filtered entry is an unmodified base entry (`title`, `label`,
`totalEarning`, `assetId`, `date`, `hashtags` all untouched) and the base
order is preserved.  Non-mutation of the base `AnalysisResult` itself is
inherent to the functional embedding: `filteredData` builds a new record and
its argument is untouched. -/
theorem filtered_videos_sublist_of_base (data : AnalysisResult) (F : FilterState) :
    (filteredData data F).videoEarnings.Sublist data.videoEarnings := by
  rw [filteredData_videoEarnings]
  unfold filteredVideos
  by_cases hlow : F.hideLowEarnings <;> by_cases htags : F.selectedHashtags.isEmpty <;>
    simp only [hlow, htags, if_true, if_false, Bool.false_eq_true] <;>
    first
    | exact ((List.filter_sublist _).trans (List.filter_sublist _)).trans (List.filter_sublist _)
    | exact (List.filter_sublist _).trans (List.filter_sublist _)
    | exact List.filter_sublist _

/-! ## C1 — filtered label totals are recomputed from the surviving videos -/

/-- Claim C1. In the filtered result, every label summary's `totalEarning` is
the sum over exactly the surviving videos carrying that label, its
`videoCount` is the number of those videos, and any label with no surviving
video is absent from the filtered `labelSummaries`. -/
theorem filtered_label_totals_from_survivors (data : AnalysisResult) (F : FilterState) :
    (∀ l ∈ (filteredData data F).labelSummaries,
        l.totalEarning =
          sumEarnings ((filteredData data F).videoEarnings.filter (fun v => v.label == l.label)) ∧
        l.videoCount =
          ((filteredData data F).videoEarnings.filter (fun v => v.label == l.label)).length) ∧
      (∀ name : String,
        (filteredData data F).videoEarnings.filter (fun v => v.label == name) = [] →
          name ∉ (filteredData data F).labelSummaries.map LabelSummary.label) := by
  constructor
  · intro l hl
    rw [filteredData_labelSummaries] at hl
    rw [mem_finalLabels_iff] at hl
    rcases hl with ⟨hmap, _⟩
    rcases List.mem_map.mp hmap with ⟨l0, _, rfl⟩
    rw [filteredData_videoEarnings]
    exact ⟨recomputeLabel_totalEarning _ _, recomputeLabel_videoCount _ _⟩
  · intro name hempty hmem
    rcases List.mem_map.mp hmem with ⟨l, hl, hlabel⟩
    rw [filteredData_labelSummaries, mem_finalLabels_iff] at hl
    rcases hl with ⟨hmap, hpos⟩
    rcases List.mem_map.mp hmap with ⟨l0, _, rfl⟩
    rw [recomputeLabel_label] at hlabel
    rw [recomputeLabel_videoCount] at hpos
    rw [filteredData_videoEarnings] at hempty
    rw [hlabel, hempty] at hpos
    exact absurd hpos (by simp)

/-- Concrete input for the C1 witness. -/
def c1Base : AnalysisResult :=
  ⟨[⟨"t", "L", 2, none, none, []⟩], [⟨"L", 2, 1⟩], 2, 0, []⟩

/-- Concrete filter state for the C1 witness. -/
def c1F : FilterState := ⟨["L"], [], false, false⟩

/-- Witness for claim C1 at a concrete base result and filter state. -/
theorem filtered_label_totals_from_survivors_witness :
    (⟨"L", 2, 1⟩ : LabelSummary).totalEarning =
        sumEarnings ((filteredData c1Base c1F).videoEarnings.filter
          (fun v => v.label == (⟨"L", 2, 1⟩ : LabelSummary).label)) ∧
      (⟨"L", 2, 1⟩ : LabelSummary).videoCount =
        ((filteredData c1Base c1F).videoEarnings.filter
          (fun v => v.label == (⟨"L", 2, 1⟩ : LabelSummary).label)).length :=
  (filtered_label_totals_from_survivors c1Base c1F).1 ⟨"L", 2, 1⟩
    (by
      norm_num [c1Base, c1F, filteredData, finalLabels, workingLabels, filteredVideos,
        recomputeLabel, sumEarnings])

/-! ## C5 — label-level hiding uses the base, pre-filter totals -/

/-- Claim C5. With `hideLowEarningLabels` set, a selected base label survives
step 2 iff its base (pre-filter) `totalEarning` is at least `1`, and a label
all of whose base summaries total below `1` is absent from the filtered label
list for every choice of the remaining filter inputs. -/
theorem low_label_hiding_uses_base_totals (data : AnalysisResult) (F : FilterState)
    (h : F.hideLowEarningLabels = true) :
    (∀ l ∈ data.labelSummaries, F.selectedLabels.contains l.label = true →
        (l ∈ workingLabels data F ↔ 1 ≤ l.totalEarning)) ∧
      (∀ name : String,
        (∀ l ∈ data.labelSummaries, l.label = name → l.totalEarning < 1) →
          name ∉ (filteredData data F).labelSummaries.map LabelSummary.label) := by
  constructor
  · intro l hl hsel
    have hsel2 : l.label ∈ F.selectedLabels := by simpa using hsel
    unfold workingLabels
    rw [if_pos h, List.mem_filter, List.mem_filter]
    simp [hl, hsel2]
  · intro name hlow hmem
    rcases List.mem_map.mp hmem with ⟨l, hl, hlabel⟩
    rw [filteredData_labelSummaries, mem_finalLabels_iff] at hl
    rcases hl with ⟨hmap, _⟩
    rcases List.mem_map.mp hmap with ⟨l0, hl0, rfl⟩
    rw [recomputeLabel_label] at hlabel
    unfold workingLabels at hl0
    rw [if_pos h, List.mem_filter, List.mem_filter] at hl0
    rcases hl0 with ⟨⟨hbase, _⟩, hge⟩
    have hlt := hlow l0 hbase hlabel
    rw [decide_eq_true_eq] at hge
    exact absurd hge (not_le.mpr hlt)

/-- Concrete input for the C5 witness: one label with base total `1/2`. -/
def c5Base : AnalysisResult := ⟨[], [⟨"L", 1/2, 1⟩], 1/2, 0, []⟩

/-- Concrete filter state for the C5 witness: `hideLowEarningLabels` on. -/
def c5F : FilterState := ⟨["L"], [], false, true⟩

/-- Witness for claim C5: the label with base total `1/2` is absent. -/
theorem low_label_hiding_uses_base_totals_witness :
    "L" ∉ (filteredData c5Base c5F).labelSummaries.map LabelSummary.label :=
  (low_label_hiding_uses_base_totals c5Base c5F rfl).2 "L"
    (by intro l hl hlabel; simp [c5Base] at hl; rw [hl]; norm_num)

/-! ## C2 — idempotence of the filter recomputation -/

theorem mem_workingLabels (data : AnalysisResult) (F : FilterState) (l : LabelSummary)
    (hl : l ∈ workingLabels data F) :
    l ∈ data.labelSummaries ∧ F.selectedLabels.contains l.label = true := by
  unfold workingLabels at hl
  by_cases h : F.hideLowEarningLabels
  · rw [if_pos h] at hl
    rcases List.mem_filter.mp hl with ⟨hl2, _⟩
    exact List.mem_filter.mp hl2
  · rw [if_neg h] at hl
    exact List.mem_filter.mp hl

theorem finalLabels_selected (data : AnalysisResult) (F : FilterState) (l : LabelSummary)
    (hl : l ∈ finalLabels data F) : F.selectedLabels.contains l.label = true := by
  rcases (mem_finalLabels_iff data F l).mp hl with ⟨hmap, _⟩
  rcases List.mem_map.mp hmap with ⟨l0, hl0, rfl⟩
  rw [recomputeLabel_label]
  exact (mem_workingLabels data F l0 hl0).2

theorem finalLabels_pos (data : AnalysisResult) (F : FilterState) (l : LabelSummary)
    (hl : l ∈ finalLabels data F) : 0 < l.videoCount :=
  ((mem_finalLabels_iff data F l).mp hl).2

theorem finalLabels_shape (data : AnalysisResult) (F : FilterState) (l : LabelSummary)
    (hl : l ∈ finalLabels data F) :
    ∃ l0 ∈ workingLabels data F, l = recomputeLabel (filteredVideos data F) l0 := by
  rcases (mem_finalLabels_iff data F l).mp hl with ⟨hmap, _⟩
  rcases List.mem_map.mp hmap with ⟨l0, hl0, rfl⟩
  exact ⟨l0, hl0, rfl⟩

/-- Every surviving video's label names a surviving (recomputed) label. -/
theorem filteredVideos_label_mem_finalLabels (data : AnalysisResult) (F : FilterState)
    (v : VideoEarning) (hv : v ∈ filteredVideos data F) :
    v.label ∈ (finalLabels data F).map LabelSummary.label := by
  rcases mem_filteredVideos data F v hv with ⟨_, hname, _, _⟩
  have hname2 : v.label ∈ (workingLabels data F).map LabelSummary.label := by simpa using hname
  rcases List.mem_map.mp hname2 with ⟨l0, hl0, hlab⟩
  refine List.mem_map.mpr ⟨recomputeLabel (filteredVideos data F) l0, ?_, by
    rw [recomputeLabel_label, hlab]⟩
  rw [mem_finalLabels_iff]
  refine ⟨List.mem_map.mpr ⟨l0, hl0, rfl⟩, ?_⟩
  rw [recomputeLabel_videoCount]
  have : v ∈ (filteredVideos data F).filter (fun w => w.label == l0.label) :=
    List.mem_filter.mpr ⟨hv, by rw [hlab]; simp⟩
  exact List.length_pos.mpr (List.ne_nil_of_mem this)

theorem recomputeLabel_idem (vids : List VideoEarning) (l : LabelSummary) :
    recomputeLabel vids (recomputeLabel vids l) = recomputeLabel vids l := by
  simp [recomputeLabel]

theorem sorted_finalLabels (data : AnalysisResult) (F : FilterState) :
    List.Sorted labelDesc (finalLabels data F) :=
  List.sorted_insertionSort labelDesc _

/-- Step 1–2 applied to the filtered result (with `hideLowEarningLabels`
off) returns exactly the filtered label list. -/
theorem workingLabels_filteredData (data : AnalysisResult) (F : FilterState)
    (h : F.hideLowEarningLabels = false) :
    workingLabels (filteredData data F) F = finalLabels data F := by
  unfold workingLabels
  rw [h, if_neg (by simp), filteredData_labelSummaries]
  exact List.filter_eq_self.mpr (fun l hl => finalLabels_selected data F l hl)

/-- Steps 3–5 applied to the filtered result (with `hideLowEarningLabels`
off) return exactly the already-filtered video list. -/
theorem filteredVideos_filteredData (data : AnalysisResult) (F : FilterState)
    (h : F.hideLowEarningLabels = false) :
    filteredVideos (filteredData data F) F = filteredVideos data F := by
  have hdef : filteredVideos (filteredData data F) F =
      (if F.hideLowEarnings then
        (if F.selectedHashtags.isEmpty then
            (filteredData data F).videoEarnings.filter (fun v =>
              ((workingLabels (filteredData data F) F).map LabelSummary.label).contains v.label)
          else
            ((filteredData data F).videoEarnings.filter (fun v =>
              ((workingLabels (filteredData data F) F).map LabelSummary.label).contains
                v.label)).filter
              (fun v => F.selectedHashtags.any (fun tag => v.hashtags.contains tag))).filter
          (fun v => 1 ≤ v.totalEarning)
      else
        (if F.selectedHashtags.isEmpty then
            (filteredData data F).videoEarnings.filter (fun v =>
              ((workingLabels (filteredData data F) F).map LabelSummary.label).contains v.label)
          else
            ((filteredData data F).videoEarnings.filter (fun v =>
              ((workingLabels (filteredData data F) F).map LabelSummary.label).contains
                v.label)).filter
              (fun v => F.selectedHashtags.any (fun tag => v.hashtags.contains tag)))) := rfl
  rw [hdef, workingLabels_filteredData data F h, filteredData_videoEarnings]
  have h1 : (filteredVideos data F).filter
      (fun v => ((finalLabels data F).map LabelSummary.label).contains v.label) =
      filteredVideos data F :=
    List.filter_eq_self.mpr (fun v hv => by
      simpa using filteredVideos_label_mem_finalLabels data F v hv)
  rw [h1]
  have h2 : (if F.selectedHashtags.isEmpty then filteredVideos data F
      else (filteredVideos data F).filter
        (fun v => F.selectedHashtags.any (fun tag => v.hashtags.contains tag))) =
      filteredVideos data F := by
    by_cases htags : F.selectedHashtags.isEmpty
    · rw [if_pos htags]
    · rw [if_neg htags]
      exact List.filter_eq_self.mpr (fun v hv =>
        (mem_filteredVideos data F v hv).2.2.1 (by simpa using htags))
  rw [h2]
  by_cases hlow : F.hideLowEarnings
  · rw [if_pos hlow]
    exact List.filter_eq_self.mpr (fun v hv => by
      have := (mem_filteredVideos data F v hv).2.2.2 (by simpa using hlow)
      simpa using this)
  · rw [if_neg hlow]

/-- Step 6–7 applied to the filtered result (with `hideLowEarningLabels`
off) reproduce the filtered label list unchanged. -/
theorem finalLabels_filteredData (data : AnalysisResult) (F : FilterState)
    (h : F.hideLowEarningLabels = false) :
    finalLabels (filteredData data F) F = finalLabels data F := by
  have hdef : finalLabels (filteredData data F) F =
      List.insertionSort labelDesc
        (((workingLabels (filteredData data F) F).map
          (recomputeLabel (filteredVideos (filteredData data F) F))).filter
          (fun l => 0 < l.videoCount)) := rfl
  rw [hdef, workingLabels_filteredData data F h, filteredVideos_filteredData data F h]
  have hmap : (finalLabels data F).map (recomputeLabel (filteredVideos data F)) =
      finalLabels data F :=
    map_eq_self (fun l hl => by
      rcases finalLabels_shape data F l hl with ⟨l0, _, rfl⟩
      exact recomputeLabel_idem _ _)
  rw [hmap]
  have hfil : (finalLabels data F).filter (fun l => 0 < l.videoCount) = finalLabels data F :=
    List.filter_eq_self.mpr (fun l hl => by
      simpa using finalLabels_pos data F l hl)
  rw [hfil]
  exact (sorted_finalLabels data F).insertionSort_eq

/-- Claim C2, amended. The recomputation is idempotent for every filter state
with `hideLowEarningLabels` off: re-filtering the filtered result with the
same labels, hashtags and video threshold reproduces it exactly.  (With
`hideLowEarningLabels` on, idempotence fails — see the counterexample.) -/
theorem recompute_idempotent_of_no_label_hiding (data : AnalysisResult) (F : FilterState)
    (h : F.hideLowEarningLabels = false) :
    filteredData (filteredData data F) F = filteredData data F := by
  have h1 := finalLabels_filteredData data F h
  have h2 := filteredVideos_filteredData data F h
  show ({ filteredData data F with
    labelSummaries := finalLabels (filteredData data F) F
    videoEarnings := filteredVideos (filteredData data F) F
    grandTotal := sumLabelTotals (finalLabels (filteredData data F) F)
    lowEarningCount :=
      ((filteredVideos (filteredData data F) F).filter (fun v => v.totalEarning < 1)).length } :
      AnalysisResult) = filteredData data F
  rw [h1, h2]
  rfl

/-- Witness for claim C2 as amended at a concrete base result and filter state. -/
theorem recompute_idempotent_of_no_label_hiding_witness :
    filteredData (filteredData c1Base c1F) c1F = filteredData c1Base c1F :=
  recompute_idempotent_of_no_label_hiding c1Base c1F rfl

/-- Concrete base for the C2 counterexample: label `L` with base total `3/2`,
holding one video of `6/5` and one of `3/10` tagged `#x`. -/
def c2Base : AnalysisResult :=
  ⟨[⟨"v1", "L", 6/5, none, none, []⟩, ⟨"v2", "L", 3/10, none, none, ["#x"]⟩],
    [⟨"L", 3/2, 2⟩], 3/2, 1, ["#x"]⟩

/-- Filter state for the C2 counterexample: `L` selected, hashtag `#x`
selected, `hideLowEarningLabels` on. -/
def c2F : FilterState := ⟨["L"], ["#x"], false, true⟩

/-- Claim C2, counterexample. With `hideLowEarningLabels` on, recomputation is
not idempotent: the first pass keeps `L` (base total `3/2 ≥ 1`) and the
hashtag filter leaves only the `3/10` video, so the filtered `L` totals
`3/10`; the second pass re-checks the `< 1` threshold against this
*recomputed* total and drops `L`, changing `grandTotal` from `3/10` to `0`. -/
theorem recompute_not_idempotent :
    (filteredData (filteredData c2Base c2F) c2F).grandTotal ≠
      (filteredData c2Base c2F).grandTotal := by
  norm_num [c2Base, c2F, filteredData, finalLabels, workingLabels, filteredVideos,
    recomputeLabel, sumEarnings, sumLabelTotals, labelDesc]

/-! ## C7 — monotonicity of the low-earning video toggle -/

theorem sumLabelTotals_cons (l : LabelSummary) (ls : List LabelSummary) :
    sumLabelTotals (l :: ls) = l.totalEarning + sumLabelTotals ls := by
  rw [sumLabelTotals_eq, sumLabelTotals_eq, List.map_cons, List.sum_cons]

theorem sumLabelTotals_perm {l1 l2 : List LabelSummary} (h : l1.Perm l2) :
    sumLabelTotals l1 = sumLabelTotals l2 := by
  rw [sumLabelTotals_eq, sumLabelTotals_eq]
  exact (h.map LabelSummary.totalEarning).sum_eq

/-- Dropping elements by a filter can only lower a sum of nonnegative
earnings. -/
theorem sumEarnings_filter_le (p : VideoEarning → Bool) (l : List VideoEarning)
    (h : ∀ v ∈ l, 0 ≤ v.totalEarning) :
    sumEarnings (l.filter p) ≤ sumEarnings l := by
  induction l with
  | nil => simp [sumEarnings]
  | cons v vs ih =>
    have hv := h v (List.mem_cons_self v vs)
    have ihs := ih (fun w hw => h w (List.mem_cons_of_mem v hw))
    rw [List.filter_cons]
    by_cases hp : p v
    · rw [if_pos hp, sumEarnings_eq, sumEarnings_eq, List.map_cons, List.sum_cons,
        List.map_cons, List.sum_cons]
      rw [sumEarnings_eq, sumEarnings_eq] at ihs
      exact add_le_add_left ihs _
    · rw [if_neg hp]
      calc sumEarnings (vs.filter p) ≤ sumEarnings vs := ihs
        _ ≤ sumEarnings (v :: vs) := by
          rw [sumEarnings_eq vs, sumEarnings_eq (v :: vs), List.map_cons, List.sum_cons]
          exact le_add_of_nonneg_left hv

theorem sumEarnings_nonneg (l : List VideoEarning) (h : ∀ v ∈ l, 0 ≤ v.totalEarning) :
    0 ≤ sumEarnings l := by
  rw [sumEarnings_eq]
  exact List.sum_nonneg (fun x hx => by
    rcases List.mem_map.mp hx with ⟨v, hv, rfl⟩
    exact h v hv)

/-- Pointwise comparison of the recompute-prune-total pipeline over the same
working label list. -/
theorem sumLabelTotals_filter_pos_mono (W : List LabelSummary)
    (g h : LabelSummary → LabelSummary)
    (hle : ∀ l ∈ W, (g l).totalEarning ≤ (h l).totalEarning)
    (hpos : ∀ l ∈ W, 0 < (g l).videoCount → 0 < (h l).videoCount)
    (hnn : ∀ l ∈ W, 0 ≤ (h l).totalEarning) :
    sumLabelTotals ((W.map g).filter (fun l => 0 < l.videoCount)) ≤
      sumLabelTotals ((W.map h).filter (fun l => 0 < l.videoCount)) := by
  induction W with
  | nil => simp [sumLabelTotals]
  | cons l0 W ih =>
    have hle0 := hle l0 (List.mem_cons_self l0 W)
    have hpos0 := hpos l0 (List.mem_cons_self l0 W)
    have hnn0 := hnn l0 (List.mem_cons_self l0 W)
    have ihs := ih (fun l hl => hle l (List.mem_cons_of_mem l0 hl))
      (fun l hl => hpos l (List.mem_cons_of_mem l0 hl))
      (fun l hl => hnn l (List.mem_cons_of_mem l0 hl))
    rw [List.map_cons, List.map_cons, List.filter_cons, List.filter_cons]
    by_cases hg : 0 < (g l0).videoCount
    · have hh := hpos0 hg
      rw [if_pos (by simpa using hg), if_pos (by simpa using hh),
        sumLabelTotals_cons, sumLabelTotals_cons]
      exact add_le_add hle0 ihs
    · rw [if_neg (by simpa using hg)]
      by_cases hh : 0 < (h l0).videoCount
      · rw [if_pos (by simpa using hh), sumLabelTotals_cons]
        calc sumLabelTotals ((W.map g).filter (fun l => 0 < l.videoCount)) ≤
            sumLabelTotals ((W.map h).filter (fun l => 0 < l.videoCount)) := ihs
          _ ≤ (h l0).totalEarning +
              sumLabelTotals ((W.map h).filter (fun l => 0 < l.videoCount)) :=
            le_add_of_nonneg_left hnn0
      · rw [if_neg (by simpa using hh)]
        exact ihs

/-- Turning the video threshold on composes one more filter onto steps 3–5
and changes nothing else. -/
theorem filteredVideos_toggle (data : AnalysisResult) (F : FilterState) :
    filteredVideos data { F with hideLowEarnings := true } =
      (filteredVideos data { F with hideLowEarnings := false }).filter
        (fun v => 1 ≤ v.totalEarning) := rfl

theorem workingLabels_toggle (data : AnalysisResult) (F : FilterState) (b : Bool) :
    workingLabels data { F with hideLowEarnings := b } = workingLabels data F := rfl

/-- Claim C7, amended. Enabling `hideLowEarningVideos` never increases the
number of filtered videos; and provided every base video's `totalEarning` is
nonnegative, it never increases the filtered `grandTotal`.  (With a negative
base earning `grandTotal` can increase — see the counterexample.) -/
theorem hide_low_videos_monotone (data : AnalysisResult) (F : FilterState) :
    (filteredData data { F with hideLowEarnings := true }).videoEarnings.length ≤
      (filteredData data { F with hideLowEarnings := false }).videoEarnings.length ∧
    ((∀ v ∈ data.videoEarnings, 0 ≤ v.totalEarning) →
      (filteredData data { F with hideLowEarnings := true }).grandTotal ≤
        (filteredData data { F with hideLowEarnings := false }).grandTotal) := by
  constructor
  · rw [filteredData_videoEarnings, filteredData_videoEarnings, filteredVideos_toggle]
    exact List.length_filter_le _ _
  · intro hnn
    show sumLabelTotals (finalLabels data { F with hideLowEarnings := true }) ≤
      sumLabelTotals (finalLabels data { F with hideLowEarnings := false })
    have hfvnn : ∀ v ∈ filteredVideos data { F with hideLowEarnings := false },
        0 ≤ v.totalEarning := fun v hv =>
      hnn v (mem_filteredVideos data _ v hv).1
    unfold finalLabels
    rw [sumLabelTotals_perm (List.perm_insertionSort labelDesc _),
      sumLabelTotals_perm (List.perm_insertionSort labelDesc _),
      workingLabels_toggle data F true, workingLabels_toggle data F false]
    apply sumLabelTotals_filter_pos_mono
    · intro l _
      rw [recomputeLabel_totalEarning, recomputeLabel_totalEarning, filteredVideos_toggle]
      rw [show ((filteredVideos data { F with hideLowEarnings := false }).filter
            (fun v => 1 ≤ v.totalEarning)).filter (fun v => v.label == l.label) =
          ((filteredVideos data { F with hideLowEarnings := false }).filter
            (fun v => v.label == l.label)).filter (fun v => 1 ≤ v.totalEarning) by
        simp [List.filter_filter, Bool.and_comm]]
      exact sumEarnings_filter_le _ _ (fun v hv =>
        hfvnn v (List.mem_filter.mp hv).1)
    · intro l _
      rw [recomputeLabel_videoCount, recomputeLabel_videoCount, filteredVideos_toggle]
      rw [show ((filteredVideos data { F with hideLowEarnings := false }).filter
            (fun v => 1 ≤ v.totalEarning)).filter (fun v => v.label == l.label) =
          ((filteredVideos data { F with hideLowEarnings := false }).filter
            (fun v => v.label == l.label)).filter (fun v => 1 ≤ v.totalEarning) by
        simp [List.filter_filter, Bool.and_comm]]
      intro hlt
      exact lt_of_lt_of_le hlt (List.Sublist.length_le (List.filter_sublist _))
    · intro l _
      rw [recomputeLabel_totalEarning]
      exact sumEarnings_nonneg _ (fun v hv => hfvnn v (List.mem_filter.mp hv).1)

/-- Witness for claim C7 as amended at a concrete base result and filter state. -/
theorem hide_low_videos_monotone_witness :
    (filteredData c1Base { c1F with hideLowEarnings := true }).grandTotal ≤
      (filteredData c1Base { c1F with hideLowEarnings := false }).grandTotal :=
  (hide_low_videos_monotone c1Base c1F).2
    (by intro v hv; simp [c1Base] at hv; rw [hv]; norm_num)

/-- Concrete base for the C7 counterexample: a single video with negative
resolved earning (`parseEarning` accepts negative number strings). -/
def c7Base : AnalysisResult := ⟨[⟨"v", "L", -5, none, none, []⟩], [⟨"L", -5, 1⟩], -5, 1, []⟩

/-- Filter state for the C7 counterexample. -/
def c7F : FilterState := ⟨["L"], [], false, false⟩

/-- Claim C7, counterexample. With a negative-earning video, enabling
`hideLowEarningVideos` strictly *increases* `grandTotal`: the `-5` video is
dropped (it is `< 1`), its label loses all videos and is pruned, and the
total rises from `-5` to `0`. -/
theorem enabling_hide_low_videos_can_raise_total :
    (filteredData c7Base { c7F with hideLowEarnings := false }).grandTotal <
      (filteredData c7Base { c7F with hideLowEarnings := true }).grandTotal := by
  norm_num [c7Base, c7F, filteredData, finalLabels, workingLabels, filteredVideos,
    recomputeLabel, sumEarnings, sumLabelTotals, labelDesc]

/-! ## C6 — the "highest efficiency" marker -/

theorem le_foldl_max (es : List ℚ) : ∀ e : ℚ, e ≤ es.foldl max e := by
  induction es with
  | nil => intro e; simp
  | cons a es ih =>
    intro e
    rw [List.foldl_cons]
    exact le_trans (le_max_left e a) (ih (max e a))

theorem mem_le_foldl_max (es : List ℚ) : ∀ (e x : ℚ), x ∈ es → x ≤ es.foldl max e := by
  induction es with
  | nil => intro e x hx; exact absurd hx (List.not_mem_nil x)
  | cons a es ih =>
    intro e x hx
    rw [List.foldl_cons]
    rcases List.mem_cons.mp hx with rfl | hx2
    · exact le_trans (le_max_right e x) (le_foldl_max es (max e x))
    · exact ih (max e a) x hx2

theorem foldl_max_mem (es : List ℚ) : ∀ e : ℚ, es.foldl max e ∈ e :: es := by
  induction es with
  | nil => intro e; simp
  | cons a es ih =>
    intro e
    rw [List.foldl_cons]
    rcases List.mem_cons.mp (ih (max e a)) with heq | hmem
    · rcases max_choice e a with hc | hc <;> rw [heq, hc] <;> simp
    · exact List.mem_cons_of_mem e (List.mem_cons_of_mem a hmem)

/-- Every visible label's efficiency is bounded by `maxEfficiency`. -/
theorem labelEfficiency_le_max (fd : AnalysisResult) (l : LabelSummary)
    (hl : l ∈ fd.labelSummaries) : labelEfficiency l ≤ maxEfficiency fd := by
  have hmem : labelEfficiency l ∈ efficiencies fd :=
    List.mem_map.mpr ⟨l, hl, rfl⟩
  unfold maxEfficiency
  rcases hes : efficiencies fd with _ | ⟨e, es⟩
  · rw [hes] at hmem; exact absurd hmem (List.not_mem_nil _)
  · rw [hes] at hmem
    rcases List.mem_cons.mp hmem with rfl | hmem2
    · exact le_foldl_max es (labelEfficiency l)
    · exact mem_le_foldl_max es e _ hmem2

/-- Value `maxEfficiency` is attained by some visible label when any exists. -/
theorem maxEfficiency_attained (fd : AnalysisResult) (hne : fd.labelSummaries ≠ []) :
    ∃ l ∈ fd.labelSummaries, labelEfficiency l = maxEfficiency fd := by
  unfold maxEfficiency
  rcases hes : efficiencies fd with _ | ⟨e, es⟩
  · exact absurd (by simpa [efficiencies] using congrArg List.length hes) (by
      simpa using fun h => hne (List.length_eq_zero.mp h))
  · have hmem : es.foldl max e ∈ e :: es := foldl_max_mem es e
    rw [← hes] at hmem
    rcases List.mem_map.mp (by simpa [efficiencies] using hmem) with ⟨l, hl, hval⟩
    exact ⟨l, hl, hval⟩

/-- Claim C6, amended. A visible label receives the "highest" efficiency
marker iff its efficiency is positive and is at least every visible label's
efficiency.  In particular, when several labels tie at the (positive) maximum
*all* of them receive the marker, not only the first in sort order. -/
theorem top_efficiency_marker_iff_maximal (fd : AnalysisResult) (l : LabelSummary)
    (hl : l ∈ fd.labelSummaries) :
    isTopEfficiency fd l = true ↔
      (0 < labelEfficiency l ∧
        ∀ l2 ∈ fd.labelSummaries, labelEfficiency l2 ≤ labelEfficiency l) := by
  unfold isTopEfficiency
  rw [Bool.and_eq_true, decide_eq_true_eq, decide_eq_true_eq]
  constructor
  · rintro ⟨hmax, hpos⟩
    exact ⟨hpos, fun l2 hl2 => hmax ▸ labelEfficiency_le_max fd l2 hl2⟩
  · rintro ⟨hpos, hub⟩
    refine ⟨le_antisymm (labelEfficiency_le_max fd l hl) ?_, hpos⟩
    rcases maxEfficiency_attained fd (List.ne_nil_of_mem hl) with ⟨l2, hl2, hval⟩
    exact hval ▸ hub l2 hl2

/-- Concrete filtered result for the C6 witness: a single visible label. -/
def c6WBase : AnalysisResult := ⟨[], [⟨"A", 2, 1⟩], 2, 0, []⟩

/-- Witness for claim C6 as amended at a concrete filtered result and label. -/
theorem top_efficiency_marker_iff_maximal_witness :
    isTopEfficiency c6WBase ⟨"A", 2, 1⟩ = true ↔
      (0 < labelEfficiency ⟨"A", 2, 1⟩ ∧
        ∀ l2 ∈ c6WBase.labelSummaries, labelEfficiency l2 ≤ labelEfficiency ⟨"A", 2, 1⟩) :=
  top_efficiency_marker_iff_maximal c6WBase ⟨"A", 2, 1⟩ (by simp [c6WBase])

/-- Concrete filtered result for the C6 counterexample: labels `A` and `B`
both have one video earning `2`, so both have efficiency `2`, the maximum. -/
def c6Base : AnalysisResult := ⟨[], [⟨"A", 2, 1⟩, ⟨"B", 2, 1⟩], 4, 0, []⟩

/-- Claim C6, counterexample. Two labels tie at the maximum efficiency and
*both* receive the "highest" marker (`isTopEfficiency` is computed
independently per row as `efficiency === maxEfficiency && efficiency > 0`),
contradicting the claim that only the first label in sort order receives it. -/
theorem tied_labels_both_receive_top_marker :
    c6Base.labelSummaries = [⟨"A", 2, 1⟩, ⟨"B", 2, 1⟩] ∧
      isTopEfficiency c6Base ⟨"A", 2, 1⟩ = true ∧
      isTopEfficiency c6Base ⟨"B", 2, 1⟩ = true := by
  refine ⟨rfl, ?_, ?_⟩ <;>
    norm_num [c6Base, isTopEfficiency, labelEfficiency, maxEfficiency, efficiencies]

/-! ## C8 — earning resolution -/

/-- The earning-parsing function as the spec words it: absent/`null`/empty
value → `0`; a numeric value → itself; a string value → the decimal parse of
the string with all commas removed, falling back to `0` when the parse fails
(`NaN`); anything else → `0`.  Stated as a second definition to be compared
with the source's `parseEarning`. -/
def parseEarningSpec (val : Value) : ℚ :=
  match val with
  | .undef => 0
  | .null => 0
  | .num q => q
  | .str s => (jsParseFloat (removeCommas s)).getD 0
  | .other => 0

theorem parseEarning_eq_spec (v : Value) : parseEarning v = parseEarningSpec v := by
  cases v with
  | undef => rfl
  | null => rfl
  | num q => rfl
  | other => rfl
  | str s =>
    by_cases hs : s = ""
    · subst hs; rfl
    · simp [parseEarning, parseEarningSpec, hs]

/-- Claim C8. For every raw row, the resolved earning is
`p(earningVN) + p(earningEN)` where `p` is the spec's parsing function
(absent/null/empty → 0, number → itself, string → comma-stripped decimal
parse with fallback 0).  Earning resolution is a total function of the two
cell values, so it cannot raise on any input. -/
theorem earning_resolution_matches_spec (r : Row) :
    rowEarning r = parseEarningSpec r.earningVN + parseEarningSpec r.earningEN := by
  unfold rowEarning
  rw [parseEarning_eq_spec, parseEarning_eq_spec]

/-! ## C4 — the base grand total equals the sum of video totals

The `videoMap` / `labelMap` updates are both "update the unique entry with
this key, else append a fresh entry"; the lemmas below are stated once over
an arbitrary key projection. -/

theorem update_preserves_keys (key : α → String) (k : String) (upd : α → α)
    (hkey : ∀ x, key (upd x) = key x) (l : List α) :
    (l.map (fun x => if key x == k then upd x else x)).map key = l.map key := by
  induction l with
  | nil => rfl
  | cons x xs ih =>
    rw [List.map_cons, List.map_cons, List.map_cons, ih]
    by_cases h : key x == k
    · rw [if_pos h, hkey]
    · rw [if_neg h]

theorem update_sum (key : α → String) (k : String) (upd : α → α) (f : α → ℚ) (e : ℚ)
    (hupd : ∀ x, key x = k → f (upd x) = f x + e) :
    ∀ l : List α, (l.map key).Nodup → l.any (fun x => key x == k) = true →
      ((l.map (fun x => if key x == k then upd x else x)).map f).sum = (l.map f).sum + e := by
  intro l
  induction l with
  | nil => intro _ hany; simp at hany
  | cons x xs ih =>
    intro hnodup hany
    rw [List.map_cons, List.nodup_cons] at hnodup
    rcases hnodup with ⟨hnotin, hnodup2⟩
    rw [List.map_cons]
    by_cases h : key x = k
    · rw [if_pos (beq_iff_eq.mpr h)]
      have htail : xs.map (fun y => if key y == k then upd y else y) = xs :=
        map_eq_self (fun y hy => by
          rw [if_neg]
          intro hc
          exact hnotin (h ▸ beq_iff_eq.mp hc ▸ List.mem_map_of_mem key hy))
      rw [htail, List.map_cons, List.sum_cons, List.map_cons, List.sum_cons, hupd x h]
      ring
    · have hany2 : xs.any (fun y => key y == k) = true := by
        rcases List.any_eq_true.mp hany with ⟨y, hy, hyk⟩
        rcases List.mem_cons.mp hy with rfl | hy2
        · exact absurd (beq_iff_eq.mp hyk) h
        · exact List.any_eq_true.mpr ⟨y, hy2, hyk⟩
      rw [if_neg (by simpa using h), List.map_cons, List.sum_cons, List.map_cons,
        List.sum_cons, ih hnodup2 hany2]
      ring

theorem entryKey_mergeVideo (r : Row) (v : VideoEarning) :
    entryKey (mergeVideo r v) = entryKey v := rfl

theorem entryKey_freshVideo (r : Row) : entryKey (freshVideo r) = rowKey r := rfl

theorem totalEarning_mergeVideo (r : Row) (v : VideoEarning) :
    (mergeVideo r v).totalEarning = v.totalEarning + rowEarning r := rfl

/-- The `videoMap` keys stay duplicate-free across one row update. -/
theorem addVideo_keys_nodup (vs : List VideoEarning) (r : Row)
    (h : (vs.map entryKey).Nodup) : ((addVideo vs r).map entryKey).Nodup := by
  unfold addVideo
  by_cases hany : vs.any (fun v => entryKey v == rowKey r)
  · rw [if_pos hany,
      update_preserves_keys entryKey (rowKey r) (mergeVideo r) (entryKey_mergeVideo r) vs]
    exact h
  · rw [if_neg hany, List.map_append, List.map_singleton, entryKey_freshVideo]
    have hnot : rowKey r ∉ vs.map entryKey := by
      intro hc
      rcases List.mem_map.mp hc with ⟨v, hv, hvk⟩
      exact hany (List.any_eq_true.mpr ⟨v, hv, beq_iff_eq.mpr hvk⟩)
    simp [List.nodup_append, h, hnot]

/-- One kept row adds exactly its earning to the total over the `videoMap`. -/
theorem addVideo_sum (vs : List VideoEarning) (r : Row)
    (h : (vs.map entryKey).Nodup) :
    sumEarnings (addVideo vs r) = sumEarnings vs + rowEarning r := by
  unfold addVideo
  by_cases hany : vs.any (fun v => entryKey v == rowKey r)
  · rw [if_pos hany, sumEarnings_eq, sumEarnings_eq]
    exact update_sum entryKey (rowKey r) (mergeVideo r) VideoEarning.totalEarning
      (rowEarning r) (fun v _ => totalEarning_mergeVideo r v) vs h hany
  · rw [if_neg hany, sumEarnings_eq, sumEarnings_eq, List.map_append, List.sum_append,
      List.map_singleton, List.sum_singleton]
    rfl

theorem label_addLabelUpdate (r : Row) (a : LabelAcc) :
    ({ a with total := a.total + rowEarning r, titles := insertUnique a.titles (keptTitle r) } : LabelAcc).label = a.label := rfl

/-- The `labelMap` keys stay duplicate-free across one row update. -/
theorem addLabel_keys_nodup (ls : List LabelAcc) (r : Row)
    (h : (ls.map LabelAcc.label).Nodup) : ((addLabel ls r).map LabelAcc.label).Nodup := by
  unfold addLabel
  by_cases hany : ls.any (fun a => a.label == normLabel r)
  · rw [if_pos hany,
      update_preserves_keys LabelAcc.label (normLabel r) _ (label_addLabelUpdate r) ls]
    exact h
  · rw [if_neg hany, List.map_append, List.map_singleton]
    have hnot : normLabel r ∉ ls.map LabelAcc.label := by
      intro hc
      rcases List.mem_map.mp hc with ⟨a, ha, hak⟩
      exact hany (List.any_eq_true.mpr ⟨a, ha, beq_iff_eq.mpr hak⟩)
    simp [List.nodup_append, h, hnot]

/-- One kept row adds exactly its earning to the total over the `labelMap`. -/
theorem addLabel_sum (ls : List LabelAcc) (r : Row)
    (h : (ls.map LabelAcc.label).Nodup) :
    ((addLabel ls r).map LabelAcc.total).sum = (ls.map LabelAcc.total).sum + rowEarning r := by
  unfold addLabel
  by_cases hany : ls.any (fun a => a.label == normLabel r)
  · rw [if_pos hany]
    exact update_sum LabelAcc.label (normLabel r) _ LabelAcc.total
      (rowEarning r) (fun a _ => rfl) ls h hany
  · rw [if_neg hany, List.map_append, List.sum_append, List.map_singleton,
      List.sum_singleton]

/-- The sum of `rowEarning` over the kept rows (those surviving the
`if (!title) return` guard). -/
def keptEarnTotal (rows : List Row) : ℚ :=
  ((rows.filter (fun r => titleKept r)).map rowEarning).sum

theorem keptEarnTotal_cons (r : Row) (rows : List Row) :
    keptEarnTotal (r :: rows) =
      (if titleKept r then rowEarning r else 0) + keptEarnTotal rows := by
  unfold keptEarnTotal
  rw [List.filter_cons]
  by_cases h : titleKept r
  · rw [if_pos h, if_pos h, List.map_cons, List.sum_cons]
  · rw [if_neg h, if_neg h, zero_add]

/-- Invariant of the `rows.forEach` fold: keys stay duplicate-free and both
accumulators' totals advance by exactly the kept rows' earnings. -/
theorem fold_sums (rows : List Row) :
    ∀ acc : CSVAcc, (acc.videos.map entryKey).Nodup → (acc.labels.map LabelAcc.label).Nodup →
      ((rows.foldl processRow acc).videos.map entryKey).Nodup ∧
      ((rows.foldl processRow acc).labels.map LabelAcc.label).Nodup ∧
      sumEarnings (rows.foldl processRow acc).videos =
        sumEarnings acc.videos + keptEarnTotal rows ∧
      ((rows.foldl processRow acc).labels.map LabelAcc.total).sum =
        (acc.labels.map LabelAcc.total).sum + keptEarnTotal rows := by
  induction rows with
  | nil =>
    intro acc h1 h2
    simp [keptEarnTotal, h1, h2]
  | cons r rest ih =>
    intro acc h1 h2
    rw [List.foldl_cons, keptEarnTotal_cons]
    by_cases hk : titleKept r
    · have hstep : processRow acc r =
          { videos := addVideo acc.videos r
            labels := addLabel acc.labels r
            tags := (rowHashtags r).foldl insertUnique acc.tags } := by
        unfold processRow
        rw [if_pos hk]
      rw [hstep, if_pos hk]
      rcases ih ⟨addVideo acc.videos r, addLabel acc.labels r,
          (rowHashtags r).foldl insertUnique acc.tags⟩
          (addVideo_keys_nodup acc.videos r h1) (addLabel_keys_nodup acc.labels r h2)
        with ⟨n1, n2, s1, s2⟩
      refine ⟨n1, n2, ?_, ?_⟩
      · rw [s1]
        show sumEarnings (addVideo acc.videos r) + keptEarnTotal rest = _
        rw [addVideo_sum acc.videos r h1]
        ring
      · rw [s2]
        show ((addLabel acc.labels r).map LabelAcc.total).sum + keptEarnTotal rest = _
        rw [addLabel_sum acc.labels r h2]
        ring
    · have hstep : processRow acc r = acc := by
        unfold processRow
        rw [if_neg hk]
      rw [hstep, if_neg hk, zero_add]
      exact ih acc h1 h2

theorem sumEarnings_perm {l1 l2 : List VideoEarning} (h : l1.Perm l2) :
    sumEarnings l1 = sumEarnings l2 := by
  rw [sumEarnings_eq, sumEarnings_eq]
  exact (h.map VideoEarning.totalEarning).sum_eq

/-- Claim C4. On every base result, the sum of `totalEarning` over the
`videoEarnings` equals `grandTotal`, and `grandTotal` is itself the sum of
the `labelSummaries` totals — exact equalities over the modelled exact
arithmetic. -/
theorem base_video_totals_equal_grand_total (rows : List Row) :
    sumEarnings (processCSV rows).videoEarnings = (processCSV rows).grandTotal ∧
      (processCSV rows).grandTotal = sumLabelTotals (processCSV rows).labelSummaries := by
  refine ⟨?_, rfl⟩
  rcases fold_sums rows { videos := [], labels := [], tags := [] }
    (by simp) (by simp) with ⟨_, _, hvideos, hlabels⟩
  have hv : sumEarnings (processCSV rows).videoEarnings = keptEarnTotal rows := by
    show sumEarnings (List.insertionSort earningDesc (csvAccOf rows).videos) = _
    rw [sumEarnings_perm (List.perm_insertionSort earningDesc _)]
    rw [show csvAccOf rows = rows.foldl processRow { videos := [], labels := [], tags := [] }
      from rfl, hvideos]
    simp [sumEarnings]
  have hg : (processCSV rows).grandTotal = keptEarnTotal rows := by
    show sumLabelTotals (List.insertionSort labelDesc ((csvAccOf rows).labels.map
      (fun a => { label := a.label, totalEarning := a.total, videoCount := a.titles.length }))) = _
    rw [sumLabelTotals_perm (List.perm_insertionSort labelDesc _), sumLabelTotals_eq,
      List.map_map]
    have hmm : ((csvAccOf rows).labels.map (LabelSummary.totalEarning ∘
        (fun a => ({ label := a.label, totalEarning := a.total, videoCount := a.titles.length } : LabelSummary)))).sum = ((csvAccOf rows).labels.map LabelAcc.total).sum := rfl
    rw [hmm, show csvAccOf rows =
      rows.foldl processRow { videos := [], labels := [], tags := [] } from rfl, hlabels]
    simp
  rw [hv, hg]

/-! ## C3 — what the aggregation actually keys on -/

/-- The sum of the earnings of the kept rows accumulating under key `k`. -/
def keptEarnSum (rows : List Row) (k : String) : ℚ :=
  ((rows.filter (fun r => titleKept r && (rowKey r == k))).map rowEarning).sum

theorem keptEarnSum_append (rows : List Row) (r : Row) (k : String) :
    keptEarnSum (rows ++ [r]) k =
      keptEarnSum rows k + (if titleKept r && (rowKey r == k) then rowEarning r else 0) := by
  unfold keptEarnSum
  rw [List.filter_append]
  by_cases h : titleKept r && (rowKey r == k)
  · simp [List.filter_cons, h]
  · simp [List.filter_cons, h]

theorem csvAccOf_append (rows : List Row) (r : Row) :
    csvAccOf (rows ++ [r]) = processRow (csvAccOf rows) r := by
  unfold csvAccOf
  rw [List.foldl_append, List.foldl_cons, List.foldl_nil]

/-- Invariant of the `videoMap` across the whole fold: entry keys are
duplicate-free, every kept row's key owns an entry, and each entry's
`totalEarning` is exactly the sum of the earnings of the kept rows whose
composite key equals the entry's. -/
theorem videoMap_invariant (rows : List Row) :
    ((csvAccOf rows).videos.map entryKey).Nodup ∧
      (∀ r ∈ rows, titleKept r = true → rowKey r ∈ (csvAccOf rows).videos.map entryKey) ∧
      (∀ e ∈ (csvAccOf rows).videos, e.totalEarning = keptEarnSum rows (entryKey e)) := by
  induction rows using List.reverseRecOn with
  | nil =>
    refine ⟨by simp [csvAccOf], by simp, by simp [csvAccOf]⟩
  | append_singleton rs r ih =>
    rcases ih with ⟨hnodup, hmem, htot⟩
    rw [csvAccOf_append]
    by_cases hk : titleKept r
    · have hstep : (processRow (csvAccOf rs) r).videos = addVideo (csvAccOf rs).videos r := by
        unfold processRow
        rw [if_pos hk]
      rw [hstep]
      unfold addVideo
      by_cases hany : (csvAccOf rs).videos.any (fun v => entryKey v == rowKey r)
      · rw [if_pos hany]
        have hkeys := update_preserves_keys entryKey (rowKey r) (mergeVideo r)
          (entryKey_mergeVideo r) (csvAccOf rs).videos
        refine ⟨by rw [hkeys]; exact hnodup, ?_, ?_⟩
        · intro r2 hr2 hk2
          rw [hkeys]
          rcases List.mem_append.mp hr2 with h2 | h2
          · exact hmem r2 h2 hk2
          · have hr2r : r2 = r := by simpa using h2
            subst hr2r
            rcases List.any_eq_true.mp hany with ⟨v, hv, hvk⟩
            exact beq_iff_eq.mp hvk ▸ List.mem_map_of_mem entryKey hv
        · intro e he
          rcases List.mem_map.mp he with ⟨e0, he0, rfl⟩
          by_cases heq : entryKey e0 == rowKey r
          · rw [if_pos heq, totalEarning_mergeVideo, entryKey_mergeVideo,
              htot e0 he0, keptEarnSum_append,
              if_pos (by simp [hk, (beq_iff_eq.mp heq).symm])]
          · rw [if_neg heq, htot e0 he0, keptEarnSum_append,
              if_neg (by simp; intro _ hc; exact absurd (beq_iff_eq.mpr hc.symm) heq),
              add_zero]
      · rw [if_neg hany]
        have hnot : rowKey r ∉ (csvAccOf rs).videos.map entryKey := by
          intro hc
          rcases List.mem_map.mp hc with ⟨v, hv, hvk⟩
          exact hany (List.any_eq_true.mpr ⟨v, hv, beq_iff_eq.mpr hvk⟩)
        refine ⟨?_, ?_, ?_⟩
        · rw [List.map_append, List.map_singleton, entryKey_freshVideo]
          simp [List.nodup_append, hnodup, hnot]
        · intro r2 hr2 hk2
          rw [List.map_append, List.map_singleton, entryKey_freshVideo]
          rcases List.mem_append.mp hr2 with h2 | h2
          · exact List.mem_append_left _ (hmem r2 h2 hk2)
          · have hr2r : r2 = r := by simpa using h2
            subst hr2r
            exact List.mem_append_right _ (List.mem_singleton_self _)
        · intro e he
          rcases List.mem_append.mp he with h2 | h2
          · rw [htot e h2, keptEarnSum_append,
              if_neg (by
                simp
                intro _ hc
                exact absurd (hc ▸ List.mem_map_of_mem entryKey h2) hnot),
              add_zero]
          · have her : e = freshVideo r := by simpa using h2
            subst her
            rw [entryKey_freshVideo, keptEarnSum_append, if_pos (by simp [hk])]
            have hzero : keptEarnSum rs (rowKey r) = 0 := by
              unfold keptEarnSum
              rw [List.filter_eq_nil_iff.mpr ?_, List.map_nil, List.sum_nil]
              intro r2 hr2
              simp only [Bool.and_eq_true, beq_iff_eq, not_and]
              intro hk2 hc
              exact absurd (hc ▸ hmem r2 hr2 hk2) hnot
            rw [hzero, zero_add]
            rfl
    · have hstep : processRow (csvAccOf rs) r = csvAccOf rs := by
        unfold processRow
        rw [if_neg hk]
      rw [hstep]
      refine ⟨hnodup, ?_, ?_⟩
      · intro r2 hr2 hk2
        rcases List.mem_append.mp hr2 with h2 | h2
        · exact hmem r2 h2 hk2
        · have hr2r : r2 = r := by simpa using h2
          subst hr2r
          exact absurd hk2 (by simpa using hk)
      · intro e he
        rw [htot e he, keptEarnSum_append, if_neg (by simp [hk]), add_zero]

/-- Claim C3, amended. The aggregation is keyed by the *composite string*
`` `${title}-${label}` ``, not by the pair: entry keys are duplicate-free,
every kept row accumulates into the entry whose composite key equals its own,
and each entry's total is the sum over exactly the kept rows sharing its
composite key.  For a fixed title the key is still injective in the label, so
two rows with the same title and different labels always yield two entries —
but distinct `(title, label)` pairs *can* collide (see the counterexample). -/
theorem aggregation_keyed_by_composite_string (rows : List Row) :
    ((processCSV rows).videoEarnings.map entryKey).Nodup ∧
      (∀ r ∈ rows, titleKept r = true →
        rowKey r ∈ (processCSV rows).videoEarnings.map entryKey) ∧
      (∀ e ∈ (processCSV rows).videoEarnings,
        e.totalEarning = keptEarnSum rows (entryKey e)) ∧
      (∀ t l1 l2 : String, videoKey t l1 = videoKey t l2 → l1 = l2) := by
  rcases videoMap_invariant rows with ⟨hnodup, hmem, htot⟩
  have hperm : (processCSV rows).videoEarnings.Perm (csvAccOf rows).videos := by
    show (List.insertionSort earningDesc (csvAccOf rows).videos).Perm _
    exact List.perm_insertionSort earningDesc _
  refine ⟨((hperm.map entryKey).nodup_iff).mpr hnodup, ?_, ?_, ?_⟩
  · intro r hr hkept
    exact (hperm.map entryKey).mem_iff.mpr (hmem r hr hkept)
  · intro e he
    exact htot e (hperm.mem_iff.mp he)
  · intro t l1 l2 h
    have h2 : (t ++ "-").data ++ l1.data = (t ++ "-").data ++ l2.data := by
      have h3 := congrArg String.data h
      simpa [videoKey, String.data_append, String.append_assoc] using h3
    exact String.ext (List.append_cancel_left h2)

/-- Witness row for the C3 counterexample: title `a-b`, label `c`. -/
def c3RowA : Row := ⟨some "a-b", some "c", none, none, "", .num 1, .undef⟩

/-- Witness row for the C3 counterexample: title `a`, label `b-c`. -/
def c3RowB : Row := ⟨some "a", some "b-c", none, none, "", .num 2, .undef⟩

/-- Claim C3, counterexample. Two kept rows with *distinct* `(title, label)`
pairs (`("a-b", "c")` and `("a", "b-c")`) collide on the composite key
`"a-b-c"` and are merged into a single `VideoEarning` entry, contradicting
the claim that distinct pairs are never merged. -/
theorem distinct_title_label_pairs_can_merge :
    titleKept c3RowA = true ∧ titleKept c3RowB = true ∧
      keptTitle c3RowA ≠ keptTitle c3RowB ∧
      (processCSV [c3RowA, c3RowB]).videoEarnings.length = 1 := by
  refine ⟨rfl, rfl, by decide, ?_⟩
  decide

/-! ## C9 — which rows feed the hashtag universe -/

/-- The global hashtag set accumulates exactly the per-row hashtag lists of
the kept rows, in row order. -/
theorem tags_fold (rows : List Row) :
    ∀ acc : CSVAcc,
      (rows.foldl processRow acc).tags =
        (((rows.filter (fun r => titleKept r)).map rowHashtags).flatten).foldl
          insertUnique acc.tags := by
  induction rows with
  | nil => intro acc; rfl
  | cons r rest ih =>
    intro acc
    rw [List.foldl_cons, List.filter_cons]
    by_cases hk : titleKept r
    · have hstep : processRow acc r =
          ⟨addVideo acc.videos r, addLabel acc.labels r,
            (rowHashtags r).foldl insertUnique acc.tags⟩ := by
        unfold processRow
        rw [if_pos hk]
      rw [if_pos hk, List.map_cons, List.flatten_cons, List.foldl_append, hstep, ih]
    · have hstep : processRow acc r = acc := by
        unfold processRow
        rw [if_neg hk]
      rw [if_neg hk, hstep, ih]

/-- Claim C9, amended. The list `allHashtags` is the ascending sort of the first-seen
de-duplication of the hashtags extracted from the descriptions of the *kept*
rows only (rows with a nonempty trimmed title).  Rows dropped by the
`if (!title) return` guard contribute nothing: the hashtag-set update sits
after that guard, unlike the date collection, which precedes it. -/
theorem all_hashtags_from_kept_rows (rows : List Row) :
    (processCSV rows).allHashtags =
      List.insertionSort (fun a b => a ≤ b)
        (dedupKeepFirst (((rows.filter (fun r => titleKept r)).map rowHashtags).flatten)) := by
  show List.insertionSort (fun a b => a ≤ b) (csvAccOf rows).tags = _
  rw [show (csvAccOf rows).tags =
    (rows.foldl processRow { videos := [], labels := [], tags := [] }).tags from rfl,
    tags_fold]
  rfl

/-- The row for the C9 counterexample: no title, description `#a`. -/
def c9Row : Row := ⟨none, none, none, none, "#a", .undef, .undef⟩

/-- Claim C9, counterexample. A row with no title carries hashtag `#a` in its
description, yet the base result's `allHashtags` is empty — titleless rows do
*not* feed the hashtag universe, contradicting the claim that hashtags are
collected across all rows. -/
theorem titleless_row_hashtags_dropped :
    titleKept c9Row = false ∧ extractHashtags c9Row.description = ["#a"] ∧
      (processCSV [c9Row]).allHashtags = [] := by
  refine ⟨rfl, by decide, by decide⟩

end EarningAnalyst
